import Mathlib

/-!
Shallow embedding of the `CacheManager` class (src/unnamed/part_003, lines
608–1094 of the repository): a bounded in-process key–value cache with TTL
expiry, LRU eviction and a memory-budget eviction policy.

Modelling conventions:
* JavaScript `Map` objects (`this.cache`, `this.accessOrder`, `this.timers`)
  are association lists with unique keys that preserve insertion order, as JS
  `Map` iteration does.  `Map.set` on a present key replaces the value in
  place; on an absent key it appends.
* `Date.now()` is an explicit `now : Int` argument to each operation; the
  per-entry `setTimeout` timers are recorded in the `timers` map as
  key ↦ deadline pairs, and firing a timer executes the callback
  `this.delete(key, false)` (cancellation = removal from the map, as
  `clearTimeout` prevents the callback from running).
* Machine numbers are modelled as `Int`/`Nat` (all arithmetic in the source is
  exact integer arithmetic far below 2^53, so no overflow modelling is
  needed); `Blob([s]).size` is the UTF-8 byte length of `s`.
* JS truthiness is modelled faithfully where the source relies on it:
  `ttl || this.defaultTTL` (0 is falsy), `options.maxSize || 1000`,
  `if (oldestKey)` (the empty string is falsy), and
  `entry.expiresAt && Date.now() > entry.expiresAt` (0 is falsy).
* `Logger` calls and the string-formatting helpers (`formatBytes`,
  `formatDuration`, `toFixed`) only affect presentation; numeric fields of
  `getStats` are modelled by their numeric values (rationals for the derived
  ratios) rather than their formatted strings.
-/

namespace TimeTravelCache

/-- A (non-null) JavaScript value stored in the cache, as far as
`calculateSize` distinguishes them: a string, an object together with its
JSON serialization (`none` when `JSON.stringify` throws, the fallback path),
or any other primitive. -/
inductive Value where
  | str (s : String)
  | obj (json : Option String)
  | prim
  deriving DecidableEq

/-- JS `Map.get`: the value stored under `k`, if any. -/
def mapGet {β : Type} : List (String × β) → String → Option β
  | [], _ => none
  | (k', v) :: rest, k => if k' = k then some v else mapGet rest k

/-- JS `Map.has`. -/
def mapHas {β : Type} : List (String × β) → String → Bool
  | [], _ => false
  | (k', _) :: rest, k => k' = k || mapHas rest k

/-- JS `Map.delete`: removes the binding of `k` (maps keep keys unique). -/
def mapDelete {β : Type} : List (String × β) → String → List (String × β)
  | [], _ => []
  | (k', v) :: rest, k =>
    if k' = k then mapDelete rest k else (k', v) :: mapDelete rest k

/-- JS `Map.set`: replaces in place when the key is present (keeping its
iteration position), appends otherwise. -/
def mapSet {β : Type} (m : List (String × β)) (k : String) (v : β) :
    List (String × β) :=
  if mapHas m k then m.map (fun p => if p.1 = k then (k, v) else p)
  else m ++ [(k, v)]

/-- A cache entry, as built in `CacheManager.set`. -/
structure CacheEntry where
  value : Value
  createdAt : Int
  expiresAt : Option Int
  lastAccessed : Int
  accessCount : Nat
  size : Nat
  deriving DecidableEq

/-- The `this.stats` record of the class. -/
structure Stats where
  hits : Nat
  misses : Nat
  sets : Nat
  deletes : Nat
  evictions : Nat
  memoryUsage : Int
  startTime : Int
  deriving DecidableEq

/-- The whole mutable state of a `CacheManager` instance. -/
structure CacheState where
  maxSize : Int
  maxMemory : Int
  defaultTTL : Int
  cleanupInterval : Int
  cache : List (String × CacheEntry)
  accessOrder : List (String × Int)
  timers : List (String × Int)
  stats : Stats
  deriving DecidableEq

/-- The `options` object passed to the constructor; `none` models an absent
property. -/
structure Options where
  maxSize : Option Int
  maxMemory : Option Int
  defaultTTL : Option Int
  cleanupInterval : Option Int

/-- JS `v || d` for an optional number: absent, `null` and `0` are falsy and
fall back to the default; every other number (negative included) is kept. -/
def jsOrInt (v : Option Int) (d : Int) : Int :=
  match v with
  | none => d
  | some x => if x = 0 then d else x

/-- `new Blob([s]).size`: the UTF-8 byte length of the string. -/
def blobSize (s : String) : Nat := s.utf8ByteSize

/-- `CacheManager.calculateSize`: key bytes + value estimate + 200 bytes of
metadata overhead.  Strings are measured exactly; objects use their JSON
serialization when `JSON.stringify` succeeds and the fixed 1024-byte fallback
otherwise; all other primitives are estimated at 64 bytes. -/
def calculateSize (key : String) (value : Value) : Nat :=
  let keySize := blobSize key
  let valueSize :=
    match value with
    | Value.str s => blobSize s
    | Value.obj (some j) => blobSize j
    | Value.obj none => 1024
    | Value.prim => 64
  keySize + valueSize + 200

/-- The test `entry.expiresAt && Date.now() > entry.expiresAt` used by
`get`, `has` and (with `now` bound at sweep time) `cleanup`.  `expiresAt` is
truthy only when present and non-zero, and the comparison is strict. -/
def isExpired (expiresAt : Option Int) (now : Int) : Bool :=
  match expiresAt with
  | none => false
  | some d => if d = 0 then false else decide (d < now)

namespace CacheManager

/-- The constructor: `options.maxSize || 1000`, `options.maxMemory ||
50*1024*1024`, `options.defaultTTL || 3600000`, `options.cleanupInterval ||
300000`; empty maps and zeroed counters.  No validation is performed. -/
def init (o : Options) (now : Int) : CacheState :=
  { maxSize := jsOrInt o.maxSize 1000
    maxMemory := jsOrInt o.maxMemory (50 * 1024 * 1024)
    defaultTTL := jsOrInt o.defaultTTL 3600000
    cleanupInterval := jsOrInt o.cleanupInterval 300000
    cache := []
    accessOrder := []
    timers := []
    stats :=
      { hits := 0, misses := 0, sets := 0, deletes := 0, evictions := 0
        memoryUsage := 0, startTime := now } }

/-- `CacheManager.delete(key, userDeletion)`: returns `false` when the key is
absent; otherwise clears the key's pending timer, removes the entry from the
cache and the access-order map, subtracts its size from
`stats.memoryUsage`, and counts a user deletion only when `userDeletion`. -/
def delete (s : CacheState) (key : String) (userDeletion : Bool) :
    Bool × CacheState :=
  match mapGet s.cache key with
  | none => (false, s)
  | some entry =>
    let s1 := { s with timers := mapDelete s.timers key }
    let s2 := { s1 with
      cache := mapDelete s1.cache key
      accessOrder := mapDelete s1.accessOrder key
      stats := { s1.stats with
        memoryUsage := s1.stats.memoryUsage - (entry.size : Int) } }
    let s3 :=
      if userDeletion then
        { s2 with stats := { s2.stats with deletes := s2.stats.deletes + 1 } }
      else s2
    (true, s3)

/-- `this.stats.misses++`. -/
def bumpMisses (s : CacheState) : CacheState :=
  { s with stats := { s.stats with misses := s.stats.misses + 1 } }

/-- `this.stats.evictions++`. -/
def bumpEvictions (s : CacheState) : CacheState :=
  { s with stats := { s.stats with evictions := s.stats.evictions + 1 } }

/-- `CacheManager.get(key)`: miss on absent key; lazy expiry (internal delete
plus a miss) when `entry.expiresAt && Date.now() > entry.expiresAt`;
otherwise updates `lastAccessed`/`accessCount`/`accessOrder`, counts a hit
and returns the value. -/
def get (s : CacheState) (now : Int) (key : String) :
    Option Value × CacheState :=
  match mapGet s.cache key with
  | none => (none, bumpMisses s)
  | some entry =>
    if isExpired entry.expiresAt now then
      (none, bumpMisses (delete s key false).2)
    else
      let entry2 :=
        { entry with lastAccessed := now, accessCount := entry.accessCount + 1 }
      (some entry.value,
        { s with
          cache := mapSet s.cache key entry2
          accessOrder := mapSet s.accessOrder key now
          stats := { s.stats with hits := s.stats.hits + 1 } })

/-- `CacheManager.has(key)`: same expiry check as `get`, deleting an expired
entry, but touching no counters or recency data. -/
def has (s : CacheState) (now : Int) (key : String) : Bool × CacheState :=
  match mapGet s.cache key with
  | none => (false, s)
  | some entry =>
    if isExpired entry.expiresAt now then (false, (delete s key false).2)
    else (true, s)

/-- The body of `evictLRU`'s scan: starting from a current best
`(oldestKey, oldestTime)` pair, keep the strictly smaller time (so the first
occurrence of the minimum wins ties). -/
def findOldestGo (best : String × Int) : List (String × Int) → String × Int
  | [] => best
  | p :: rest =>
    if p.2 < best.2 then findOldestGo p rest else findOldestGo best rest

/-- The full scan of `evictLRU`: `oldestTime` starts at `Infinity`, so the
first element always becomes the initial best. -/
def findOldestKey : List (String × Int) → Option String
  | [] => none
  | p :: rest => some (findOldestGo p rest).1

/-- `CacheManager.evictLRU()`: on a non-empty cache, scan `accessOrder` for
the key with the minimum access time and, **only if that key is truthy**
(`if (oldestKey)` — the empty string is falsy), delete it internally and
count an eviction. -/
def evictLRU (s : CacheState) : CacheState :=
  if s.cache.length = 0 then s
  else
    match findOldestKey s.accessOrder with
    | none => s
    | some oldestKey =>
      if oldestKey = "" then s
      else bumpEvictions (delete s oldestKey false).2

/-- Stable insertion of one element into a list sorted by ascending time:
an element moves before the first strictly-later element, matching the
stable `Array.prototype.sort((a, b) => a[1] - b[1])`. -/
def insertByTime (p : String × Int) :
    List (String × Int) → List (String × Int)
  | [] => [p]
  | q :: rest => if p.2 ≤ q.2 then p :: q :: rest else q :: insertByTime p rest

/-- `Array.from(this.accessOrder.entries()).sort((a, b) => a[1] - b[1])`:
a stable ascending sort by access time (ties keep map iteration order). -/
def sortByTime : List (String × Int) → List (String × Int)
  | [] => []
  | p :: rest => insertByTime p (sortByTime rest)

/-- The loop of `evictMemory`: walk the time-sorted entries, breaking once
`freedSize >= targetSize`, otherwise deleting each still-live entry
internally, counting an eviction and accumulating its size. -/
def evictMemoryGo (s : CacheState) (entries : List (String × Int))
    (freed : Nat) (target : Int) : CacheState :=
  match entries with
  | [] => s
  | (key, _) :: rest =>
    if target ≤ (freed : Int) then s
    else
      match mapGet s.cache key with
      | some entry =>
        evictMemoryGo (bumpEvictions (delete s key false).2) rest
          (freed + entry.size) target
      | none => evictMemoryGo s rest freed target

/-- `CacheManager.evictMemory(requiredSize)`: target =
`memoryUsage + requiredSize - maxMemory`; evict ascending by access time
until the target is freed or the entries run out. -/
def evictMemory (s : CacheState) (requiredSize : Nat) : CacheState :=
  evictMemoryGo s (sortByTime s.accessOrder) 0
    (s.stats.memoryUsage + (requiredSize : Int) - s.maxMemory)

/-- The `if (this.cache.has(key)) this.delete(key, false)` step of `set`. -/
def removeOldPhase (s : CacheState) (key : String) : CacheState :=
  if mapHas s.cache key then (delete s key false).2 else s

/-- The `if (this.stats.memoryUsage + size > this.maxMemory)` step of
`set`. -/
def memoryCheckPhase (s : CacheState) (size : Nat) : CacheState :=
  if s.maxMemory < s.stats.memoryUsage + (size : Int) then evictMemory s size
  else s

/-- The `if (this.cache.size >= this.maxSize)` step of `set`. -/
def countCheckPhase (s : CacheState) : CacheState :=
  if s.maxSize ≤ (s.cache.length : Int) then evictLRU s else s

/-- The final paragraph of `set`: store the entry, record the access time,
add the size, count the set, and arm the expiry timer when `expiresAt` is
truthy. -/
def insertPhase (s : CacheState) (now : Int) (key : String) (value : Value)
    (expiresAt : Option Int) (size : Nat) : CacheState :=
  let entry : CacheEntry :=
    { value := value, createdAt := now, expiresAt := expiresAt
      lastAccessed := now, accessCount := 0, size := size }
  let s4 := { s with
    cache := mapSet s.cache key entry
    accessOrder := mapSet s.accessOrder key now
    stats := { s.stats with
      memoryUsage := s.stats.memoryUsage + (size : Int)
      sets := s.stats.sets + 1 } }
  match expiresAt with
  | some d => if d = 0 then s4 else { s4 with timers := mapSet s4.timers key d }
  | none => s4

/-- `CacheManager.set(key, value, ttl = null)`: `actualTTL = ttl ||
defaultTTL`; `expiresAt = actualTTL > 0 ? now + actualTTL : null`; then the
four phases in source order: remove an existing entry, memory check, count
check, insert. -/
def set (s : CacheState) (now : Int) (key : String) (value : Value)
    (ttl : Option Int) : CacheState :=
  let actualTTL := jsOrInt ttl s.defaultTTL
  let expiresAt : Option Int :=
    if 0 < actualTTL then some (now + actualTTL) else none
  let size := calculateSize key value
  insertPhase (countCheckPhase (memoryCheckPhase (removeOldPhase s key) size))
    now key value expiresAt size

/-- `CacheManager.clear()`: drop all entries, access records and timers and
zero `memoryUsage` (counters and configuration are kept). -/
def clear (s : CacheState) : CacheState :=
  { s with cache := [], accessOrder := [], timers := []
           stats := { s.stats with memoryUsage := 0 } }

/-- `CacheManager.getOrSet(key, asyncFunction, ttl = null)`: the compute step
is a pure outcome `fn : Except String Value` (`Except.error` models a
rejected promise).  A non-null cached value is returned as is; otherwise on
success the value is stored and returned, and on failure the error is
rethrown unchanged with no further state change. -/
def getOrSet (s : CacheState) (now : Int) (key : String)
    (fn : Except String Value) (ttl : Option Int) :
    Except String Value × CacheState :=
  match get s now key with
  | (some v, s1) => (Except.ok v, s1)
  | (none, s1) =>
    match fn with
    | Except.ok v => (Except.ok v, set s1 now key v ttl)
    | Except.error e => (Except.error e, s1)

/-- `CacheManager.cleanup()` (the periodic sweep): visit the entries in map
order and internally delete each one whose `expiresAt` is truthy and
strictly passed. -/
def cleanup (s : CacheState) (now : Int) : CacheState :=
  (s.cache.map (fun p => p.1)).foldl
    (fun acc key =>
      match mapGet acc.cache key with
      | some entry =>
        if isExpired entry.expiresAt now then (delete acc key false).2 else acc
      | none => acc)
    s

/-- Firing the `setTimeout` callback armed for `key`, at current time `now`:
if the timer is still pending (not cancelled) and its deadline has been
reached, it runs `this.delete(key, false)`. -/
def fireTimer (s : CacheState) (key : String) (now : Int) : CacheState :=
  match mapGet s.timers key with
  | some d => if d ≤ now then (delete s key false).2 else s
  | none => s

/-- Advancing the clock to `t`: every timer whose deadline has been reached
fires (each firing re-checks that the timer is still pending). -/
def advanceTo (s : CacheState) (t : Int) : CacheState :=
  ((s.timers.filter (fun p => p.2 ≤ t)).map (fun p => p.1)).foldl
    (fun acc k => fireTimer acc k t) s

/-- The numeric content of the object returned by `getStats`; fields the
source renders as strings (`memoryUsage`, `memoryUtilization`, `hitRate`,
`uptime`) are modelled by the numeric values being formatted. -/
structure StatsSnapshot where
  entries : Nat
  memoryUsageBytes : Int
  maxMemory : Int
  memoryUtilization : ℚ
  hits : Nat
  misses : Nat
  hitRate : ℚ
  sets : Nat
  deletes : Nat
  evictions : Nat
  uptime : Int
  deriving DecidableEq

/-- `CacheManager.getStats()`: `hitRate = hits / (hits + misses)` when the
denominator is positive and `0` otherwise;
`memoryUtilization = memoryUsage / maxMemory * 100`. -/
def getStats (s : CacheState) (now : Int) : StatsSnapshot :=
  { entries := s.cache.length
    memoryUsageBytes := s.stats.memoryUsage
    maxMemory := s.maxMemory
    memoryUtilization := (s.stats.memoryUsage : ℚ) / (s.maxMemory : ℚ) * 100
    hits := s.stats.hits
    misses := s.stats.misses
    hitRate :=
      if 0 < s.stats.hits + s.stats.misses then
        (s.stats.hits : ℚ) / ((s.stats.hits : ℚ) + (s.stats.misses : ℚ))
      else 0
    sets := s.stats.sets
    deletes := s.stats.deletes
    evictions := s.stats.evictions
    uptime := now - s.stats.startTime }

end CacheManager

/-- One public operation of the cache, with its call-time clock value where
the source reads `Date.now()`.  `fireOp` is a timer-driven expiry callback;
`cleanupOp` is the periodic sweep; the eviction routines are also included
as standalone operations. -/
inductive Op where
  | setOp (now : Int) (key : String) (value : Value) (ttl : Option Int)
  | getOp (now : Int) (key : String)
  | hasOp (now : Int) (key : String)
  | deleteOp (key : String)
  | clearOp
  | getOrSetOp (now : Int) (key : String) (fn : Except String Value)
      (ttl : Option Int)
  | fireOp (now : Int) (key : String)
  | cleanupOp (now : Int)
  | evictLRUOp
  | evictMemoryOp (requiredSize : Nat)

/-- Running one operation on the state. -/
def applyOp (s : CacheState) : Op → CacheState
  | Op.setOp now key value ttl => CacheManager.set s now key value ttl
  | Op.getOp now key => (CacheManager.get s now key).2
  | Op.hasOp now key => (CacheManager.has s now key).2
  | Op.deleteOp key => (CacheManager.delete s key true).2
  | Op.clearOp => CacheManager.clear s
  | Op.getOrSetOp now key fn ttl => (CacheManager.getOrSet s now key fn ttl).2
  | Op.fireOp now key => CacheManager.fireTimer s key now
  | Op.cleanupOp now => CacheManager.cleanup s now
  | Op.evictLRUOp => CacheManager.evictLRU s
  | Op.evictMemoryOp n => CacheManager.evictMemory s n

/-- Running a sequence of operations. -/
def applyOps (s : CacheState) (ops : List Op) : CacheState :=
  ops.foldl applyOp s

/-- The sum of the `size` fields of all entries currently in the store. -/
def sumSizes (m : List (String × CacheEntry)) : Nat :=
  (m.map (fun p => p.2.size)).sum

/-- The access-time view of the entry store: each key with its entry's
`lastAccessed`. -/
def cacheProj (m : List (String × CacheEntry)) : List (String × Int) :=
  m.map (fun p => (p.1, p.2.lastAccessed))

/-- The internal representation invariants the class maintains: unique cache
keys, `accessOrder` mirroring the entries' `lastAccessed` values position by
position, and exact memory accounting. -/
def Inv (s : CacheState) : Prop :=
  (s.cache.map (fun p => p.1)).Nodup ∧
  s.accessOrder = cacheProj s.cache ∧
  s.stats.memoryUsage = (sumSizes s.cache : Int)

instance (s : CacheState) : Decidable (Inv s) := by
  unfold Inv; infer_instance

/-- The size of the live entry stored under `k` (0 when absent); used to
state the memory-eviction characterization against the pre-eviction
snapshot. -/
def sizeIn (s : CacheState) (k : String) : Nat :=
  match mapGet s.cache k with
  | some e => e.size
  | none => 0

/-- The bytes freed by evicting the entries of `l` (keys with their access
times), all sizes read in the snapshot `s`. -/
def freedBy (s : CacheState) (l : List (String × Int)) : Int :=
  (((l.map (fun p => sizeIn s p.1)).sum : Nat) : Int)

/-- Evicting a list of victims in order: each one is an internal delete
followed by an `evictions` increment, as in the body of `evictMemory`. -/
def bulkEvict (s : CacheState) (ks : List String) : CacheState :=
  ks.foldl
    (fun acc k => CacheManager.bumpEvictions (CacheManager.delete acc k false).2)
    s

/-! ### Concrete states used as test fixtures -/

/-- `new CacheManager({})`: all defaults. -/
def optsDefault : Options := ⟨none, none, none, none⟩

/-- Options with `defaultTTL: 10`. -/
def optsTTL10 : Options := ⟨none, none, some 10, none⟩

/-- Options with `defaultTTL: 100`. -/
def optsTTL100 : Options := ⟨none, none, some 100, none⟩

/-- Options with `maxSize: 1`. -/
def optsMax1 : Options := ⟨some 1, none, none, none⟩

/-- Options with `maxSize: 2`. -/
def optsMax2 : Options := ⟨some 2, none, none, none⟩

/-- Options with `maxSize: -1, maxMemory: -1, defaultTTL: 0`. -/
def optsNeg : Options := ⟨some (-1), some (-1), some 0, none⟩

/-- One entry `"k"` with `expiresAt = 100` (set at time 0 with ttl 100). -/
def exA : CacheState :=
  CacheManager.set (CacheManager.init optsDefault 0) 0 "k" Value.prim (some 100)

/-- The entry stored in `exA` under `"k"`. -/
def exAEntry : CacheEntry :=
  { value := Value.prim, createdAt := 0, expiresAt := some 100
    lastAccessed := 0, accessCount := 0, size := 265 }

/-- One entry `"k"` whose `expiresAt = 10` is already in the past for any
clock beyond 10 (set at time 0 with the configured `defaultTTL: 10`). -/
def exExpired : CacheState :=
  CacheManager.set (CacheManager.init optsTTL10 0) 0 "k" (Value.str "v") none

/-- The entry stored in `exExpired` under `"k"`. -/
def exEntryExpired : CacheEntry :=
  { value := Value.str "v", createdAt := 0, expiresAt := some 10
    lastAccessed := 0, accessCount := 0, size := 202 }

/-- `maxSize = 1`; insert under key `""`, then insert `"a"`. -/
def exC2 : CacheState :=
  applyOps (CacheManager.init optsMax1 0)
    [Op.setOp 0 "" Value.prim none, Op.setOp 1 "a" Value.prim none]

/-- `maxSize = 2`; insert `""`, `"x"`, then `"y"` with `""` least recently
used. -/
def exC3 : CacheState :=
  applyOps (CacheManager.init optsMax2 0)
    [Op.setOp 0 "" Value.prim none, Op.setOp 1 "x" Value.prim none,
      Op.setOp 2 "y" Value.prim none]

/-- `set("k", "a", ttl = 100)` at time 0: deadline 100. -/
def exC6a : CacheState :=
  CacheManager.set (CacheManager.init optsDefault 0) 0 "k" (Value.str "a")
    (some 100)

/-- ... then `delete("k")` at time 50. -/
def exC6b : CacheState := (CacheManager.delete exC6a "k" true).2

/-- ... then `set("k", "b", ttl = 100)` at time 50: fresh deadline 150. -/
def exC6c : CacheState :=
  CacheManager.set exC6b 50 "k" (Value.str "b") (some 100)

/-- One hit (`get "a"`) and one miss (`get "b"`) after `set "a"`. -/
def exC8 : CacheState :=
  (CacheManager.get
    (CacheManager.get
      (CacheManager.set (CacheManager.init optsDefault 0) 0 "a" Value.prim
        none) 0 "a").2
    0 "b").2

/-! ### Association-list lemmas -/

section MapLemmas

variable {β : Type}

theorem mapHas_false_iff (m : List (String × β)) (k : String) :
    mapHas m k = false ↔ mapGet m k = none := by
  induction m with
  | nil => simp [mapHas, mapGet]
  | cons p rest ih =>
    obtain ⟨k', v⟩ := p
    by_cases h : k' = k <;> simp [mapHas, mapGet, h, ih]

theorem mapHas_true_iff (m : List (String × β)) (k : String) :
    mapHas m k = true ↔ ∃ v, mapGet m k = some v := by
  induction m with
  | nil => simp [mapHas, mapGet]
  | cons p rest ih =>
    obtain ⟨k', v⟩ := p
    by_cases h : k' = k <;> simp [mapHas, mapGet, h, ih]

theorem mapHas_iff_mem (m : List (String × β)) (k : String) :
    mapHas m k = true ↔ k ∈ m.map (fun p => p.1) := by
  induction m with
  | nil => simp [mapHas]
  | cons p rest ih =>
    obtain ⟨k', v⟩ := p
    by_cases h : k' = k <;> simp [mapHas, h, ih]
    exact fun hk => (h hk.symm).elim

theorem mapGet_mapDelete_self (m : List (String × β)) (k : String) :
    mapGet (mapDelete m k) k = none := by
  induction m with
  | nil => simp [mapDelete, mapGet]
  | cons p rest ih =>
    obtain ⟨k', v⟩ := p
    by_cases h : k' = k <;> simp [mapDelete, mapGet, h, ih]

theorem mapGet_mapDelete_ne (m : List (String × β)) {k' k : String}
    (h : k' ≠ k) : mapGet (mapDelete m k') k = mapGet m k := by
  induction m with
  | nil => simp [mapDelete]
  | cons p rest ih =>
    obtain ⟨k₀, v⟩ := p
    by_cases h0 : k₀ = k'
    · subst h0; simp [mapDelete, mapGet, h, ih]
    · simp only [mapDelete, if_neg h0]
      by_cases h1 : k₀ = k
      · simp [mapGet, h1]
      · simp [mapGet, h1, ih]

theorem mapGet_mapDelete_none (m : List (String × β)) {k : String}
    (k' : String) (h : mapGet m k = none) :
    mapGet (mapDelete m k') k = none := by
  by_cases hk : k' = k
  · subst hk; exact mapGet_mapDelete_self m k'
  · rw [mapGet_mapDelete_ne m hk]; exact h

theorem mem_keys_mapDelete (m : List (String × β)) (k x : String)
    (h : x ∈ (mapDelete m k).map (fun p => p.1)) :
    x ∈ m.map (fun p => p.1) := by
  induction m with
  | nil => simp [mapDelete] at h
  | cons p rest ih =>
    obtain ⟨k', v⟩ := p
    simp only [List.map_cons, List.mem_cons]
    by_cases h0 : k' = k
    · simp only [mapDelete, if_pos h0] at h
      exact Or.inr (ih h)
    · simp only [mapDelete, if_neg h0, List.map_cons, List.mem_cons] at h
      rcases h with h | h
      · exact Or.inl h
      · exact Or.inr (ih h)

theorem nodup_keys_mapDelete (m : List (String × β)) (k : String)
    (h : (m.map (fun p => p.1)).Nodup) :
    ((mapDelete m k).map (fun p => p.1)).Nodup := by
  induction m with
  | nil => simp [mapDelete]
  | cons p rest ih =>
    obtain ⟨k', v⟩ := p
    simp only [List.map_cons, List.nodup_cons] at h
    by_cases h0 : k' = k
    · simp only [mapDelete, if_pos h0]
      exact ih h.2
    · simp only [mapDelete, if_neg h0, List.map_cons, List.nodup_cons]
      exact ⟨fun hx => h.1 (mem_keys_mapDelete rest k k' hx), ih h.2⟩

theorem mapDelete_of_none (m : List (String × β)) (k : String)
    (h : mapGet m k = none) : mapDelete m k = m := by
  induction m with
  | nil => simp [mapDelete]
  | cons p rest ih =>
    obtain ⟨k', v⟩ := p
    by_cases h0 : k' = k
    · simp [mapGet, h0] at h
    · simp only [mapGet, if_neg h0] at h
      simp [mapDelete, h0, ih h]

theorem map_replace_eq_self (m : List (String × β)) (k : String) (v : β)
    (h : mapGet m k = none) :
    m.map (fun p => if p.1 = k then (k, v) else p) = m := by
  induction m with
  | nil => rfl
  | cons p rest ih =>
    obtain ⟨k', w⟩ := p
    by_cases h0 : k' = k
    · simp [mapGet, h0] at h
    · simp only [mapGet, if_neg h0] at h
      simp [h0, ih h]

theorem mapGet_map_replace (m : List (String × β)) (k : String) (v : β)
    (h : mapHas m k = true) :
    mapGet (m.map (fun p => if p.1 = k then (k, v) else p)) k = some v := by
  induction m with
  | nil => simp [mapHas] at h
  | cons p rest ih =>
    obtain ⟨k', w⟩ := p
    simp only [List.map_cons]
    by_cases h0 : k' = k
    · subst h0
      have hd : (if (k', w).1 = k' then (k', v) else (k', w)) = (k', v) :=
        if_pos rfl
      rw [hd]
      simp [mapGet]
    · have hd : (if (k', w).1 = k then (k, v) else (k', w)) = (k', w) := by
        simp [h0]
      rw [hd]
      have h' : mapHas rest k = true := by
        simp only [mapHas, Bool.or_eq_true, decide_eq_true_eq] at h
        rcases h with h | h
        · exact (h0 h).elim
        · exact h
      simp [mapGet, h0, ih h']

theorem mapGet_append_single (m : List (String × β)) (k : String) (v : β)
    (h : mapGet m k = none) : mapGet (m ++ [(k, v)]) k = some v := by
  induction m with
  | nil => simp [mapGet]
  | cons p rest ih =>
    obtain ⟨k', w⟩ := p
    by_cases h0 : k' = k
    · simp [mapGet, h0] at h
    · simp only [mapGet, if_neg h0] at h
      simp only [List.cons_append, mapGet, if_neg h0]
      exact ih h

theorem mapGet_mapSet_self (m : List (String × β)) (k : String) (v : β) :
    mapGet (mapSet m k v) k = some v := by
  unfold mapSet
  by_cases h : mapHas m k
  · rw [if_pos h]
    exact mapGet_map_replace m k v h
  · rw [if_neg h]
    have hf : mapHas m k = false := by simpa using h
    exact mapGet_append_single m k v ((mapHas_false_iff m k).1 hf)

theorem keys_map_replace (m : List (String × β)) (k : String) (v : β) :
    (m.map (fun p => if p.1 = k then (k, v) else p)).map (fun p => p.1)
      = m.map (fun p => p.1) := by
  induction m with
  | nil => rfl
  | cons p rest ih =>
    obtain ⟨k', w⟩ := p
    by_cases h0 : k' = k
    · subst h0; simp [ih]
    · simp [h0, ih]

theorem keys_mapSet_of_has (m : List (String × β)) (k : String) (v : β)
    (h : mapHas m k = true) :
    (mapSet m k v).map (fun p => p.1) = m.map (fun p => p.1) := by
  unfold mapSet
  rw [if_pos h]
  exact keys_map_replace m k v

theorem mapSet_of_not_has (m : List (String × β)) (k : String) (v : β)
    (h : mapHas m k = false) : mapSet m k v = m ++ [(k, v)] := by
  unfold mapSet
  rw [if_neg (by simp [h])]

end MapLemmas

/-! ### Size-accounting lemmas -/

theorem sumSizes_mapDelete (m : List (String × CacheEntry)) (k : String)
    (e : CacheEntry) (hnd : (m.map (fun p => p.1)).Nodup)
    (h : mapGet m k = some e) :
    sumSizes m = sumSizes (mapDelete m k) + e.size := by
  induction m with
  | nil => simp [mapGet] at h
  | cons p rest ih =>
    obtain ⟨k', v⟩ := p
    simp only [List.map_cons, List.nodup_cons] at hnd
    by_cases h0 : k' = k
    · simp only [mapGet, if_pos h0] at h
      obtain rfl : v = e := by injection h
      subst h0
      have hrest : mapGet rest k' = none := by
        rw [← mapHas_false_iff]
        rw [Bool.eq_false_iff]
        intro hc
        exact hnd.1 ((mapHas_iff_mem rest k').1 hc)
      simp [mapDelete, sumSizes, mapDelete_of_none rest k' hrest]
      ring
    · simp only [mapGet, if_neg h0] at h
      have := ih hnd.2 h
      simp only [mapDelete, if_neg h0]
      simp only [sumSizes, List.map_cons, List.sum_cons] at this ⊢
      omega

theorem sumSizes_append_single (m : List (String × CacheEntry)) (k : String)
    (e : CacheEntry) : sumSizes (m ++ [(k, e)]) = sumSizes m + e.size := by
  simp [sumSizes]

theorem sumSizes_map_replace (m : List (String × CacheEntry)) (k : String)
    (e v : CacheEntry) (hnd : (m.map (fun p => p.1)).Nodup)
    (h : mapGet m k = some e) :
    sumSizes (m.map (fun p => if p.1 = k then (k, v) else p)) + e.size
      = sumSizes m + v.size := by
  induction m with
  | nil => simp [mapGet] at h
  | cons p rest ih =>
    obtain ⟨k', w⟩ := p
    simp only [List.map_cons, List.nodup_cons] at hnd
    by_cases h0 : k' = k
    · simp only [mapGet, if_pos h0] at h
      obtain rfl : w = e := by injection h
      subst h0
      have hrest : mapGet rest k' = none := by
        rw [← mapHas_false_iff, Bool.eq_false_iff]
        intro hc
        exact hnd.1 ((mapHas_iff_mem rest k').1 hc)
      simp only [List.map_cons, if_pos rfl, map_replace_eq_self rest k' v hrest]
      simp [sumSizes]
      ring
    · simp only [mapGet, if_neg h0] at h
      have := ih hnd.2 h
      simp only [List.map_cons, if_neg h0, sumSizes, List.sum_cons] at this ⊢
      omega

theorem sumSizes_mapSet_of_get (m : List (String × CacheEntry)) (k : String)
    (e v : CacheEntry) (hnd : (m.map (fun p => p.1)).Nodup)
    (h : mapGet m k = some e) :
    sumSizes (mapSet m k v) + e.size = sumSizes m + v.size := by
  have hhas : mapHas m k = true := (mapHas_true_iff m k).2 ⟨e, h⟩
  unfold mapSet
  rw [if_pos hhas]
  exact sumSizes_map_replace m k e v hnd h

/-! ### Projection lemmas: `accessOrder` mirrors the entry store -/

theorem keys_cacheProj (m : List (String × CacheEntry)) :
    (cacheProj m).map (fun p => p.1) = m.map (fun p => p.1) := by
  simp only [cacheProj, List.map_map]
  apply List.map_congr_left
  intro p _
  rfl

theorem mapHas_cacheProj (m : List (String × CacheEntry)) (k : String) :
    mapHas (cacheProj m) k = mapHas m k := by
  induction m with
  | nil => rfl
  | cons p rest ih =>
    simp only [cacheProj, List.map_cons, mapHas] at ih ⊢
    rw [ih]

theorem mapDelete_cacheProj (m : List (String × CacheEntry)) (k : String) :
    mapDelete (cacheProj m) k = cacheProj (mapDelete m k) := by
  induction m with
  | nil => rfl
  | cons p rest ih =>
    obtain ⟨k', e⟩ := p
    by_cases h0 : k' = k
    · simpa [cacheProj, mapDelete, h0] using ih
    · simp only [cacheProj, List.map_cons, mapDelete, if_neg h0] at ih ⊢
      rw [ih]

theorem cacheProj_map_replace (m : List (String × CacheEntry)) (k : String)
    (e : CacheEntry) :
    cacheProj (m.map (fun p => if p.1 = k then (k, e) else p))
      = (cacheProj m).map
          (fun p => if p.1 = k then (k, e.lastAccessed) else p) := by
  simp only [cacheProj, List.map_map]
  apply List.map_congr_left
  intro p _
  by_cases h0 : p.1 = k <;> simp [Function.comp, h0]

theorem mapSet_cacheProj (m : List (String × CacheEntry)) (k : String)
    (e : CacheEntry) :
    cacheProj (mapSet m k e) = mapSet (cacheProj m) k e.lastAccessed := by
  unfold mapSet
  rw [mapHas_cacheProj]
  by_cases h : mapHas m k
  · rw [if_pos h, if_pos h]
    exact cacheProj_map_replace m k e
  · rw [if_neg h, if_neg h]
    simp [cacheProj]

/-! ### Characterizations of `delete` -/

theorem delete_none (s : CacheState) (k : String) (u : Bool)
    (hget : mapGet s.cache k = none) :
    CacheManager.delete s k u = (false, s) := by
  unfold CacheManager.delete
  rw [hget]

theorem delete_some (s : CacheState) (k : String) (u : Bool) (e : CacheEntry)
    (hget : mapGet s.cache k = some e) :
    CacheManager.delete s k u =
      (true,
        { s with
          cache := mapDelete s.cache k
          accessOrder := mapDelete s.accessOrder k
          timers := mapDelete s.timers k
          stats := { s.stats with
            memoryUsage := s.stats.memoryUsage - (e.size : Int)
            deletes := s.stats.deletes + (if u then 1 else 0) } }) := by
  unfold CacheManager.delete
  rw [hget]
  by_cases hu : u <;> simp [hu]

/-! ### Invariant preservation -/

theorem Inv_delete (s : CacheState) (k : String) (u : Bool) (h : Inv s) :
    Inv (CacheManager.delete s k u).2 := by
  cases hget : mapGet s.cache k with
  | none => rw [delete_none s k u hget]; exact h
  | some e =>
    rw [delete_some s k u e hget]
    obtain ⟨hnd, hproj, hmem⟩ := h
    refine ⟨nodup_keys_mapDelete _ _ hnd, ?_, ?_⟩
    · show mapDelete s.accessOrder k = cacheProj (mapDelete s.cache k)
      rw [hproj, mapDelete_cacheProj]
    · show s.stats.memoryUsage - (e.size : Int)
        = (sumSizes (mapDelete s.cache k) : Int)
      have hsum := sumSizes_mapDelete s.cache k e hnd hget
      rw [hmem]
      omega

theorem Inv_bumpEvictions (s : CacheState) (h : Inv s) :
    Inv (CacheManager.bumpEvictions s) := h

theorem Inv_bumpMisses (s : CacheState) (h : Inv s) :
    Inv (CacheManager.bumpMisses s) := h

theorem Inv_evictLRU (s : CacheState) (h : Inv s) :
    Inv (CacheManager.evictLRU s) := by
  unfold CacheManager.evictLRU
  by_cases h0 : s.cache.length = 0
  · rw [if_pos h0]; exact h
  · rw [if_neg h0]
    cases hfind : CacheManager.findOldestKey s.accessOrder with
    | none => exact h
    | some k =>
      show Inv (if k = "" then s
        else CacheManager.bumpEvictions (CacheManager.delete s k false).2)
      by_cases hk : k = ""
      · rw [if_pos hk]; exact h
      · rw [if_neg hk]
        exact Inv_bumpEvictions _ (Inv_delete s k false h)

theorem Inv_evictMemoryGo (l : List (String × Int)) :
    ∀ (s : CacheState) (freed : Nat) (target : Int), Inv s →
      Inv (CacheManager.evictMemoryGo s l freed target) := by
  induction l with
  | nil => intro s freed target h; exact h
  | cons p rest ih =>
    intro s freed target h
    obtain ⟨key, t⟩ := p
    unfold CacheManager.evictMemoryGo
    by_cases hstop : target ≤ (freed : Int)
    · rw [if_pos hstop]; exact h
    · rw [if_neg hstop]
      cases hget : mapGet s.cache key with
      | none => exact ih s freed target h
      | some e =>
        exact ih _ _ _ (Inv_bumpEvictions _ (Inv_delete s key false h))

theorem Inv_evictMemory (s : CacheState) (n : Nat) (h : Inv s) :
    Inv (CacheManager.evictMemory s n) :=
  Inv_evictMemoryGo _ s 0 _ h

theorem Inv_clear (s : CacheState) (_h : Inv s) :
    Inv (CacheManager.clear s) := by
  refine ⟨?_, ?_, ?_⟩ <;> simp [CacheManager.clear, cacheProj, sumSizes]

/-! ### Characterizations of `get` -/

theorem get_miss_absent (s : CacheState) (now : Int) (k : String)
    (hget : mapGet s.cache k = none) :
    CacheManager.get s now k = (none, CacheManager.bumpMisses s) := by
  unfold CacheManager.get
  rw [hget]

theorem get_expired (s : CacheState) (now : Int) (k : String) (e : CacheEntry)
    (hget : mapGet s.cache k = some e)
    (hexp : isExpired e.expiresAt now = true) :
    CacheManager.get s now k =
      (none, CacheManager.bumpMisses (CacheManager.delete s k false).2) := by
  unfold CacheManager.get
  rw [hget]
  simp [hexp]

theorem get_hit (s : CacheState) (now : Int) (k : String) (e : CacheEntry)
    (hget : mapGet s.cache k = some e)
    (hexp : isExpired e.expiresAt now = false) :
    CacheManager.get s now k =
      (some e.value,
        { s with
          cache := mapSet s.cache k
            { e with lastAccessed := now, accessCount := e.accessCount + 1 }
          accessOrder := mapSet s.accessOrder k now
          stats := { s.stats with hits := s.stats.hits + 1 } }) := by
  unfold CacheManager.get
  rw [hget]
  simp [hexp]

theorem Inv_get (s : CacheState) (now : Int) (k : String) (h : Inv s) :
    Inv (CacheManager.get s now k).2 := by
  cases hget : mapGet s.cache k with
  | none => rw [get_miss_absent s now k hget]; exact Inv_bumpMisses s h
  | some e =>
    by_cases hexp : isExpired e.expiresAt now
    · rw [get_expired s now k e hget hexp]
      exact Inv_bumpMisses _ (Inv_delete s k false h)
    · rw [get_hit s now k e hget (by simpa using hexp)]
      obtain ⟨hnd, hproj, hmem⟩ := h
      have hhas : mapHas s.cache k = true := (mapHas_true_iff _ _).2 ⟨e, hget⟩
      refine ⟨?_, ?_, ?_⟩
      · show ((mapSet s.cache k _).map (fun p => p.1)).Nodup
        rw [keys_mapSet_of_has _ _ _ hhas]
        exact hnd
      · show mapSet s.accessOrder k now = cacheProj (mapSet s.cache k _)
        rw [hproj, mapSet_cacheProj]
      · show s.stats.memoryUsage = (sumSizes (mapSet s.cache k _) : Int)
        have hs := sumSizes_mapSet_of_get s.cache k e
          { e with lastAccessed := now, accessCount := e.accessCount + 1 }
          hnd hget
        have hsz :
            ({ e with lastAccessed := now, accessCount := e.accessCount + 1 }
              : CacheEntry).size = e.size :=
          rfl
        rw [hsz] at hs
        rw [hmem]
        omega

theorem Inv_has (s : CacheState) (now : Int) (k : String) (h : Inv s) :
    Inv (CacheManager.has s now k).2 := by
  unfold CacheManager.has
  cases hget : mapGet s.cache k with
  | none => exact h
  | some e =>
    show Inv (if isExpired e.expiresAt now
      then (false, (CacheManager.delete s k false).2) else (true, s)).2
    by_cases hexp : isExpired e.expiresAt now
    · rw [if_pos hexp]; exact Inv_delete s k false h
    · rw [if_neg hexp]; exact h

theorem Inv_fireTimer (s : CacheState) (k : String) (now : Int) (h : Inv s) :
    Inv (CacheManager.fireTimer s k now) := by
  unfold CacheManager.fireTimer
  cases hT : mapGet s.timers k with
  | none => exact h
  | some d =>
    show Inv (if d ≤ now then (CacheManager.delete s k false).2 else s)
    by_cases hd : d ≤ now
    · rw [if_pos hd]; exact Inv_delete s k false h
    · rw [if_neg hd]; exact h

theorem Inv_cleanup (s : CacheState) (now : Int) (h : Inv s) :
    Inv (CacheManager.cleanup s now) := by
  unfold CacheManager.cleanup
  generalize (s.cache.map (fun p => p.1)) = ks
  induction ks generalizing s with
  | nil => exact h
  | cons k rest ih =>
    simp only [List.foldl_cons]
    apply ih
    cases hget : mapGet s.cache k with
    | none => exact h
    | some e =>
      show Inv (if isExpired e.expiresAt now
        then (CacheManager.delete s k false).2 else s)
      by_cases he : isExpired e.expiresAt now
      · rw [if_pos he]; exact Inv_delete s k false h
      · rw [if_neg he]; exact h

/-! ### Absence of the inserted key through the pre-insert phases -/

theorem mapGet_delete_self (s : CacheState) (k : String) (u : Bool) :
    mapGet ((CacheManager.delete s k u).2).cache k = none := by
  cases hget : mapGet s.cache k with
  | none => rw [delete_none s k u hget]; exact hget
  | some e => rw [delete_some s k u e hget]; exact mapGet_mapDelete_self _ _

theorem mapGet_delete_other_none (s : CacheState) (k : String) (u : Bool)
    (k0 : String) (h : mapGet s.cache k0 = none) :
    mapGet ((CacheManager.delete s k u).2).cache k0 = none := by
  cases hget : mapGet s.cache k with
  | none => rw [delete_none s k u hget]; exact h
  | some e => rw [delete_some s k u e hget]; exact mapGet_mapDelete_none _ _ h

theorem mapGet_removeOldPhase (s : CacheState) (k : String) :
    mapGet (CacheManager.removeOldPhase s k).cache k = none := by
  unfold CacheManager.removeOldPhase
  by_cases h : mapHas s.cache k
  · rw [if_pos h]; exact mapGet_delete_self s k false
  · rw [if_neg h]
    exact (mapHas_false_iff _ _).1 (by simpa using h)

theorem Inv_removeOldPhase (s : CacheState) (k : String) (h : Inv s) :
    Inv (CacheManager.removeOldPhase s k) := by
  unfold CacheManager.removeOldPhase
  by_cases h0 : mapHas s.cache k
  · rw [if_pos h0]; exact Inv_delete s k false h
  · rw [if_neg h0]; exact h

theorem mapGet_evictLRU_none (s : CacheState) (k0 : String)
    (h : mapGet s.cache k0 = none) :
    mapGet (CacheManager.evictLRU s).cache k0 = none := by
  unfold CacheManager.evictLRU
  by_cases h0 : s.cache.length = 0
  · rw [if_pos h0]; exact h
  · rw [if_neg h0]
    cases hfind : CacheManager.findOldestKey s.accessOrder with
    | none => exact h
    | some k =>
      show mapGet (if k = "" then s
        else CacheManager.bumpEvictions
          (CacheManager.delete s k false).2).cache k0 = none
      by_cases hk : k = ""
      · rw [if_pos hk]; exact h
      · rw [if_neg hk]
        exact mapGet_delete_other_none s k false k0 h

theorem mapGet_evictMemoryGo_none (l : List (String × Int)) :
    ∀ (s : CacheState) (freed : Nat) (target : Int) (k0 : String),
      mapGet s.cache k0 = none →
      mapGet (CacheManager.evictMemoryGo s l freed target).cache k0 = none := by
  induction l with
  | nil => intro s freed target k0 h; exact h
  | cons p rest ih =>
    intro s freed target k0 h
    obtain ⟨key, t⟩ := p
    unfold CacheManager.evictMemoryGo
    by_cases hstop : target ≤ (freed : Int)
    · rw [if_pos hstop]; exact h
    · rw [if_neg hstop]
      cases hget : mapGet s.cache key with
      | none => exact ih s freed target k0 h
      | some e =>
        exact ih _ _ _ k0 (mapGet_delete_other_none s key false k0 h)

theorem mapGet_memoryCheckPhase_none (s : CacheState) (n : Nat) (k0 : String)
    (h : mapGet s.cache k0 = none) :
    mapGet (CacheManager.memoryCheckPhase s n).cache k0 = none := by
  unfold CacheManager.memoryCheckPhase
  by_cases h0 : s.maxMemory < s.stats.memoryUsage + (n : Int)
  · rw [if_pos h0]; exact mapGet_evictMemoryGo_none _ s 0 _ k0 h
  · rw [if_neg h0]; exact h

theorem Inv_memoryCheckPhase (s : CacheState) (n : Nat) (h : Inv s) :
    Inv (CacheManager.memoryCheckPhase s n) := by
  unfold CacheManager.memoryCheckPhase
  by_cases h0 : s.maxMemory < s.stats.memoryUsage + (n : Int)
  · rw [if_pos h0]; exact Inv_evictMemory s n h
  · rw [if_neg h0]; exact h

theorem mapGet_countCheckPhase_none (s : CacheState) (k0 : String)
    (h : mapGet s.cache k0 = none) :
    mapGet (CacheManager.countCheckPhase s).cache k0 = none := by
  unfold CacheManager.countCheckPhase
  by_cases h0 : s.maxSize ≤ (s.cache.length : Int)
  · rw [if_pos h0]; exact mapGet_evictLRU_none s k0 h
  · rw [if_neg h0]; exact h

theorem Inv_countCheckPhase (s : CacheState) (h : Inv s) :
    Inv (CacheManager.countCheckPhase s) := by
  unfold CacheManager.countCheckPhase
  by_cases h0 : s.maxSize ≤ (s.cache.length : Int)
  · rw [if_pos h0]; exact Inv_evictLRU s h
  · rw [if_neg h0]; exact h

/-! ### `set` preserves the invariant -/

theorem Inv_insertPhase (s : CacheState) (now : Int) (key : String)
    (value : Value) (expiresAt : Option Int) (size : Nat) (h : Inv s)
    (habs : mapGet s.cache key = none) :
    Inv (CacheManager.insertPhase s now key value expiresAt size) := by
  obtain ⟨hnd, hproj, hmem⟩ := h
  have hhasc : mapHas s.cache key = false := (mapHas_false_iff _ _).2 habs
  have hhasa : mapHas s.accessOrder key = false := by
    rw [hproj, mapHas_cacheProj]
    exact hhasc
  have hnotmem : key ∉ s.cache.map (fun p => p.1) := by
    intro hc
    rw [(mapHas_iff_mem s.cache key).2 hc] at hhasc
    exact Bool.true_eq_false.mp hhasc
  have main : Inv
      { s with
        cache := mapSet s.cache key
          { value := value, createdAt := now, expiresAt := expiresAt
            lastAccessed := now, accessCount := 0, size := size }
        accessOrder := mapSet s.accessOrder key now
        stats := { s.stats with
          memoryUsage := s.stats.memoryUsage + (size : Int)
          sets := s.stats.sets + 1 } } := by
    refine ⟨?_, ?_, ?_⟩
    · show ((mapSet s.cache key _).map (fun p => p.1)).Nodup
      rw [mapSet_of_not_has _ _ _ hhasc, List.map_append]
      rw [List.nodup_append]
      refine ⟨hnd, List.nodup_singleton _, ?_⟩
      intro a ha hb
      simp only [List.map_cons, List.map_nil, List.mem_singleton] at hb
      subst hb
      exact hnotmem ha
    · show mapSet s.accessOrder key now = cacheProj (mapSet s.cache key _)
      rw [mapSet_of_not_has _ _ _ hhasa, mapSet_of_not_has _ _ _ hhasc, hproj]
      simp [cacheProj]
    · show s.stats.memoryUsage + (size : Int)
        = (sumSizes (mapSet s.cache key _) : Int)
      rw [mapSet_of_not_has _ _ _ hhasc, sumSizes_append_single, hmem]
      push_cast
      ring
  unfold CacheManager.insertPhase
  cases expiresAt with
  | none => exact main
  | some d =>
    show Inv (if d = 0 then _ else _)
    by_cases hd : d = 0
    · rw [if_pos hd]; exact main
    · rw [if_neg hd]; exact main

theorem Inv_set (s : CacheState) (now : Int) (key : String) (value : Value)
    (ttl : Option Int) (h : Inv s) :
    Inv (CacheManager.set s now key value ttl) := by
  unfold CacheManager.set
  apply Inv_insertPhase
  · exact Inv_countCheckPhase _
      (Inv_memoryCheckPhase _ _ (Inv_removeOldPhase _ _ h))
  · exact mapGet_countCheckPhase_none _ _
      (mapGet_memoryCheckPhase_none _ _ _ (mapGet_removeOldPhase s key))

theorem Inv_getOrSet (s : CacheState) (now : Int) (k : String)
    (fn : Except String Value) (ttl : Option Int) (h : Inv s) :
    Inv (CacheManager.getOrSet s now k fn ttl).2 := by
  unfold CacheManager.getOrSet
  have h1 : Inv (CacheManager.get s now k).2 := Inv_get s now k h
  cases hg : CacheManager.get s now k with
  | mk r s1 =>
    rw [hg] at h1
    cases r with
    | some v => exact h1
    | none =>
      cases fn with
      | ok v => exact Inv_set s1 now k v ttl h1
      | error e => exact h1

theorem Inv_applyOp (s : CacheState) (op : Op) (h : Inv s) :
    Inv (applyOp s op) := by
  cases op with
  | setOp now key value ttl => exact Inv_set s now key value ttl h
  | getOp now key => exact Inv_get s now key h
  | hasOp now key => exact Inv_has s now key h
  | deleteOp key => exact Inv_delete s key true h
  | clearOp => exact Inv_clear s h
  | getOrSetOp now key fn ttl => exact Inv_getOrSet s now key fn ttl h
  | fireOp now key => exact Inv_fireTimer s key now h
  | cleanupOp now => exact Inv_cleanup s now h
  | evictLRUOp => exact Inv_evictLRU s h
  | evictMemoryOp n => exact Inv_evictMemory s n h

theorem Inv_applyOps (ops : List Op) :
    ∀ (s : CacheState), Inv s → Inv (applyOps s ops) := by
  induction ops with
  | nil => intro s h; exact h
  | cons op rest ih =>
    intro s h
    exact ih (applyOp s op) (Inv_applyOp s op h)

theorem Inv_init (o : Options) (now : Int) : Inv (CacheManager.init o now) := by
  refine ⟨?_, rfl, rfl⟩
  simp [CacheManager.init]

/-! ### The entry written by `set` -/

theorem insertPhase_cache (s : CacheState) (now : Int) (k : String)
    (v : Value) (exp : Option Int) (size : Nat) :
    (CacheManager.insertPhase s now k v exp size).cache
      = mapSet s.cache k
          { value := v, createdAt := now, expiresAt := exp
            lastAccessed := now, accessCount := 0, size := size } := by
  cases exp with
  | none => rfl
  | some d =>
    by_cases hd : d = 0 <;> simp [CacheManager.insertPhase, hd]

theorem mapGet_set_self (s : CacheState) (now : Int) (k : String) (v : Value)
    (ttl : Option Int) :
    mapGet (CacheManager.set s now k v ttl).cache k
      = some
          { value := v, createdAt := now
            expiresAt :=
              if 0 < jsOrInt ttl s.defaultTTL
              then some (now + jsOrInt ttl s.defaultTTL) else none
            lastAccessed := now, accessCount := 0
            size := calculateSize k v } := by
  show mapGet (CacheManager.insertPhase _ now k v _ _).cache k = _
  rw [insertPhase_cache]
  exact mapGet_mapSet_self _ _ _

/-! ### Claim C1 -/

/-- **C1** (confirmed).  Accounting invariant: starting from any constructed
cache and running any sequence of public operations (`set`, `get`, `has`,
`delete`, `clear`, `getOrSet`, timer-driven expiry, the cleanup sweep, and
the eviction routines), the aggregate `stats.memoryUsage` — which is also
the `memoryUsageBytes` field of the statistics snapshot — equals the sum of
the `size` fields of all entries currently in the store, exactly. -/
theorem C1_accounting_invariant (o : Options) (start : Int) (ops : List Op)
    (now : Int) :
    (applyOps (CacheManager.init o start) ops).stats.memoryUsage
      = (sumSizes (applyOps (CacheManager.init o start) ops).cache : Int) ∧
    (CacheManager.getStats (applyOps (CacheManager.init o start) ops) now
        ).memoryUsageBytes
      = (sumSizes (applyOps (CacheManager.init o start) ops).cache : Int) := by
  have h := Inv_applyOps ops (CacheManager.init o start) (Inv_init o start)
  exact ⟨h.2.2, h.2.2⟩

/-! ### Claim C2 -/

/-- **C2** (code bug).  The claimed bound `entryCount ≤ maxEntries` after
every `set` is violated by the code: with `maxSize = 1`, inserting under the
key `""` and then under `"a"` leaves 2 entries and records no eviction —
`evictLRU` finds `""` as the least-recently-used key but its
`if (oldestKey)` guard treats the empty string as falsy and skips the
eviction, so `set` inserts past the bound. -/
theorem C2_bound_violation :
    (CacheManager.init optsMax1 0).maxSize = 1 ∧
    exC2.cache.length = 2 ∧
    exC2.stats.evictions = 0 ∧
    mapHas exC2.cache "" = true ∧ mapHas exC2.cache "a" = true := by
  decide

/-! ### Claim C4 -/

/-- **C4** counterexample.  The claim says constructing with
`maxSize <= 0` or `maxMemory <= 0` raises a `ConfigurationError` rather than
producing a usable cache; in the code the constructor performs no
validation: with `maxSize: -1, maxMemory: -1` construction succeeds, keeps
the negative limits, and the resulting instance serves `set`/`get`
normally. -/
theorem C4_construction_cex :
    (CacheManager.init optsNeg 0).maxSize = -1 ∧
    (CacheManager.init optsNeg 0).maxMemory = -1 ∧
    (CacheManager.get
      (CacheManager.set (CacheManager.init optsNeg 0) 0 "k" (Value.str "v")
        none) 0 "k").1 = some (Value.str "v") := by
  decide

/-- **C4** (corrected).  The constructor never validates and never raises:
`maxSize`/`maxMemory` fall back to the defaults `1000` and `50*1024*1024`
only when absent or `0` (JS `||`), negative values are kept as-is, the
store starts empty, and the instance is usable — a fresh `set` followed by
`get` at the same clock returns the stored value for every options object.
-/
theorem C4_no_validation (o : Options) (now : Int) (k : String) (v : Value) :
    (CacheManager.init o now).maxSize = jsOrInt o.maxSize 1000 ∧
    (CacheManager.init o now).maxMemory
      = jsOrInt o.maxMemory (50 * 1024 * 1024) ∧
    (CacheManager.init o now).cache = [] ∧
    (CacheManager.get
      (CacheManager.set (CacheManager.init o now) now k v none) now k).1
      = some v := by
  refine ⟨rfl, rfl, rfl, ?_⟩
  have hget := mapGet_set_self (CacheManager.init o now) now k v none
  have hexp : isExpired
      (if 0 < jsOrInt none (CacheManager.init o now).defaultTTL
        then some (now + jsOrInt none (CacheManager.init o now).defaultTTL)
        else none) now = false := by
    by_cases h0 : 0 < jsOrInt none (CacheManager.init o now).defaultTTL
    · rw [if_pos h0]
      unfold isExpired
      by_cases hz : now + jsOrInt none (CacheManager.init o now).defaultTTL = 0
      · simp [hz]
      · have hnlt :
            ¬ (now + jsOrInt none (CacheManager.init o now).defaultTTL
              < now) := by
          omega
        simp [hz, hnlt]
    · rw [if_neg h0]
      rfl
  rw [get_hit _ now k _ hget hexp]

/-! ### Claim C5 -/

/-- **C5** counterexample.  The claim says an entry whose `expiresAt` equals
the current time is not observable via `get`; in the code the expiry test is
strict (`Date.now() > entry.expiresAt`), so at `now = expiresAt = 100` the
entry is returned as a hit and stays in the store. -/
theorem C5_boundary_cex :
    (mapGet exA.cache "k").map (fun e => e.expiresAt) = some (some 100) ∧
    (CacheManager.get exA 100 "k").1 = some Value.prim ∧
    mapHas (CacheManager.get exA 100 "k").2.cache "k" = true := by
  decide

/-- **C5** (corrected).  Lazy expiry on `get` uses the strict comparison:
when the entry's `expiresAt = d` is non-zero and `d < now`, `get` deletes
the entry internally (the `deletes` counter is untouched), increments
`misses` and returns a miss; but an entry whose `expiresAt` equals the
current time is still observable — `get` returns its value. -/
theorem C5_lazy_expiry_strict :
    (∀ (s : CacheState) (now : Int) (k : String) (e : CacheEntry) (d : Int),
      mapGet s.cache k = some e → e.expiresAt = some d → d ≠ 0 → d < now →
      CacheManager.get s now k
        = (none, CacheManager.bumpMisses (CacheManager.delete s k false).2)
      ∧ mapGet (CacheManager.get s now k).2.cache k = none
      ∧ (CacheManager.get s now k).2.stats.misses = s.stats.misses + 1
      ∧ (CacheManager.get s now k).2.stats.deletes = s.stats.deletes) ∧
    (∀ (s : CacheState) (now : Int) (k : String) (e : CacheEntry),
      mapGet s.cache k = some e → e.expiresAt = some now →
      (CacheManager.get s now k).1 = some e.value) := by
  constructor
  · intro s now k e d hget hexp hd0 hlt
    have hisexp : isExpired e.expiresAt now = true := by
      rw [hexp]
      simp [isExpired, hd0, hlt]
    have hmain := get_expired s now k e hget hisexp
    refine ⟨hmain, ?_, ?_, ?_⟩
    · rw [hmain]
      exact mapGet_delete_self s k false
    · rw [hmain, delete_some s k false e hget]
      rfl
    · rw [hmain, delete_some s k false e hget]
      rfl
  · intro s now k e hget hexp
    have hisexp : isExpired e.expiresAt now = false := by
      rw [hexp]
      by_cases h0 : now = 0 <;> simp [isExpired, h0]
    rw [get_hit s now k e hget hisexp]

/-- **C5** witness: the amended expiry behaviour at the concrete state
`exA` (entry `"k"`, `expiresAt = 100`), read at time 101. -/
theorem C5_witness :
    mapGet exA.cache "k" = some exAEntry ∧
    CacheManager.get exA 101 "k"
      = (none,
          CacheManager.bumpMisses (CacheManager.delete exA "k" false).2) :=
  ⟨by decide,
    (C5_lazy_expiry_strict.1 exA 101 "k" exAEntry 100 (by decide) (by decide)
      (by decide) (by decide)).1⟩

/-! ### Claim C6 -/

/-- **C6** (confirmed).  Timer cancellation: deleting a present key always
removes its pending timer (general part), and in the concrete scenario —
`set("k", ttl 100)` at time 0 (deadline 100), `delete("k")` at time 50,
`set("k", ttl 100)` at time 50 (fresh deadline 150) — advancing the clock to
the original deadline 100 fires nothing and leaves the new entry intact,
while advancing to 150 fires the new timer and deletes it. -/
theorem C6_timer_cancellation :
    (∀ (s : CacheState) (k : String) (u : Bool), mapHas s.cache k = true →
      mapGet ((CacheManager.delete s k u).2).timers k = none) ∧
    exC6a.timers = [("k", 100)] ∧
    exC6b.timers = [] ∧
    exC6c.timers = [("k", 150)] ∧
    (CacheManager.advanceTo exC6c 100).cache = exC6c.cache ∧
    (mapGet (CacheManager.advanceTo exC6c 100).cache "k").map
      (fun e => e.value) = some (Value.str "b") ∧
    mapGet
      (CacheManager.advanceTo (CacheManager.advanceTo exC6c 100) 150).cache
      "k" = none := by
  constructor
  · intro s k u hhas
    obtain ⟨e, hget⟩ := (mapHas_true_iff _ _).1 hhas
    rw [delete_some s k u e hget]
    exact mapGet_mapDelete_self _ _
  · decide

/-- **C6** witness: the general cancellation part applied to the concrete
state `exC6a`, whose cache contains `"k"`. -/
theorem C6_witness :
    mapHas exC6a.cache "k" = true ∧
    mapGet ((CacheManager.delete exC6a "k" true).2).timers "k" = none :=
  ⟨by decide, C6_timer_cancellation.1 exC6a "k" true (by decide)⟩

/-! ### Claim C7 -/

/-- **C7** (confirmed).  Compute-failure atomicity of `getOrSet`: for a key
absent from the store and a failing compute step, the failure propagates
unchanged, the resulting state is exactly the original state plus one miss
(`stats.misses + 1`), the store itself is untouched, and the key remains
absent so a later call can retry. -/
theorem C7_getOrSet_failure_atomic (s : CacheState) (now : Int) (k : String)
    (ttl : Option Int) (err : String)
    (habs : mapGet s.cache k = none) :
    CacheManager.getOrSet s now k (Except.error err) ttl
      = (Except.error err, CacheManager.bumpMisses s) ∧
    mapGet (CacheManager.getOrSet s now k (Except.error err) ttl).2.cache k
      = none ∧
    (CacheManager.getOrSet s now k (Except.error err) ttl).2.stats.misses
      = s.stats.misses + 1 ∧
    (CacheManager.getOrSet s now k (Except.error err) ttl).2.cache
      = s.cache := by
  have hg := get_miss_absent s now k habs
  unfold CacheManager.getOrSet
  rw [hg]
  exact ⟨rfl, habs, rfl, rfl⟩

/-- **C7** witness: the failure path on a fresh cache and the absent key
`"x"`. -/
theorem C7_witness :
    mapGet (CacheManager.init optsDefault 0).cache "x" = none ∧
    CacheManager.getOrSet (CacheManager.init optsDefault 0) 0 "x"
        (Except.error "boom") none
      = (Except.error "boom",
          CacheManager.bumpMisses (CacheManager.init optsDefault 0)) :=
  ⟨rfl,
    (C7_getOrSet_failure_atomic (CacheManager.init optsDefault 0) 0 "x" none
      "boom" rfl).1⟩

/-! ### Claim C8 -/

/-- **C8** (confirmed).  The statistics snapshot derives
`hitRate = hits / (hits + misses)`, with `0` when the denominator is `0`;
in the concrete run with exactly one hit and one miss the reported hit rate
is `0.5` (the source then renders it as the percentage string `"50.00%"`,
which is the formatting of this same number). -/
theorem C8_hit_rate :
    (∀ (s : CacheState) (now : Int),
      (CacheManager.getStats s now).hitRate
        = if 0 < s.stats.hits + s.stats.misses
          then (s.stats.hits : ℚ)
            / ((s.stats.hits : ℚ) + (s.stats.misses : ℚ))
          else 0) ∧
    exC8.stats.hits = 1 ∧ exC8.stats.misses = 1 ∧
    (CacheManager.getStats exC8 0).hitRate = 1 / 2 := by
  refine ⟨fun s now => rfl, by decide, by decide, ?_⟩
  have h1 : exC8.stats.hits = 1 := by decide
  have h2 : exC8.stats.misses = 1 := by decide
  show (if 0 < exC8.stats.hits + exC8.stats.misses
    then (exC8.stats.hits : ℚ)
      / ((exC8.stats.hits : ℚ) + (exC8.stats.misses : ℚ))
    else 0) = 1 / 2
  rw [h1, h2]
  norm_num

/-! ### Claim C9 -/

/-- **C9** (confirmed).  `delete` performs no expiry check: its code never
reads the clock, so for every present entry — whatever its `expiresAt`,
already-passed deadlines included — it removes the entry, returns `true`
and (invoked directly, `userDeletion = true`) increments `deletes`; it
returns `false`, leaving the state unchanged, exactly when the key is
absent. -/
theorem C9_delete_no_expiry_check (s : CacheState) (k : String) :
    (∀ e : CacheEntry, mapGet s.cache k = some e →
      (CacheManager.delete s k true).1 = true ∧
      mapGet (CacheManager.delete s k true).2.cache k = none ∧
      (CacheManager.delete s k true).2.stats.deletes
        = s.stats.deletes + 1) ∧
    (mapGet s.cache k = none → CacheManager.delete s k true = (false, s)) := by
  constructor
  · intro e hget
    rw [delete_some s k true e hget]
    refine ⟨rfl, mapGet_mapDelete_self _ _, ?_⟩
    show s.stats.deletes + (if true then 1 else 0) = s.stats.deletes + 1
    simp
  · intro h
    exact delete_none s k true h

/-- **C9** witness: deleting the key `"k"` of `exExpired`, whose entry has
`expiresAt = 10` already in the past, still removes it, returns `true` and
counts the user deletion. -/
theorem C9_witness :
    (mapGet exExpired.cache "k" = some exEntryExpired ∧
      exEntryExpired.expiresAt = some 10) ∧
    ((CacheManager.delete exExpired "k" true).1 = true ∧
      mapGet (CacheManager.delete exExpired "k" true).2.cache "k" = none ∧
      (CacheManager.delete exExpired "k" true).2.stats.deletes
        = exExpired.stats.deletes + 1) :=
  ⟨⟨by decide, by decide⟩,
    (C9_delete_no_expiry_check exExpired "k").1 exEntryExpired (by decide)⟩

/-! ### Claim C10 -/

/-- **C10** counterexample.  The claim says that with a positive
`defaultTTL` no per-call ttl argument can create a never-expiring entry; in
the code `ttl || defaultTTL` keeps a *negative* ttl (it is truthy), the
check `actualTTL > 0` then fails, and the entry is stored with
`expiresAt = null`: with `defaultTTL = 100`, `set(k, v, -1)` creates a
never-expiring entry. -/
theorem C10_negative_ttl_cex :
    (CacheManager.init optsTTL100 0).defaultTTL = 100 ∧
    (mapGet
      (CacheManager.set (CacheManager.init optsTTL100 0) 0 "k"
        (Value.str "v") (some (-1))).cache "k").map (fun e => e.expiresAt)
      = some none := by
  decide

/-- **C10** (corrected).  `set(key, value, 0)` is identical to
`set(key, value)` — an explicit ttl of `0` is falsy and falls back to the
configured default — and with a positive `defaultTTL` no *non-negative*
per-call ttl can create a never-expiring entry; a *negative* per-call ttl,
however, always does (its `actualTTL` fails the `> 0` check), regardless of
the default. -/
theorem C10_ttl_zero_default :
    (∀ (s : CacheState) (now : Int) (k : String) (v : Value),
      CacheManager.set s now k v (some 0) = CacheManager.set s now k v none) ∧
    (∀ (s : CacheState) (now : Int) (k : String) (v : Value) (t : Int),
      0 < s.defaultTTL → 0 ≤ t →
      ∃ e, mapGet (CacheManager.set s now k v (some t)).cache k = some e ∧
        e.expiresAt.isSome = true) ∧
    (∀ (s : CacheState) (now : Int) (k : String) (v : Value) (t : Int),
      t < 0 →
      ∃ e, mapGet (CacheManager.set s now k v (some t)).cache k = some e ∧
        e.expiresAt = none) := by
  refine ⟨?_, ?_, ?_⟩
  · intro s now k v
    have h : jsOrInt (some 0) s.defaultTTL = jsOrInt none s.defaultTTL := by
      simp [jsOrInt]
    unfold CacheManager.set
    rw [h]
  · intro s now k v t hdef ht
    refine ⟨_, mapGet_set_self s now k v (some t), ?_⟩
    have hpos : 0 < jsOrInt (some t) s.defaultTTL := by
      show 0 < if t = 0 then s.defaultTTL else t
      by_cases h0 : t = 0
      · rw [if_pos h0]; exact hdef
      · rw [if_neg h0]; omega
    rw [if_pos hpos]
    rfl
  · intro s now k v t ht
    refine ⟨_, mapGet_set_self s now k v (some t), ?_⟩
    have hneg : ¬ 0 < jsOrInt (some t) s.defaultTTL := by
      show ¬ 0 < if t = 0 then s.defaultTTL else t
      rw [if_neg (by omega : ¬ t = 0)]
      omega
    rw [if_neg hneg]

/-- **C10** witness: `defaultTTL = 100 > 0` and the non-negative ttl `0`
yield an entry with a finite `expiresAt`. -/
theorem C10_witness :
    0 < (CacheManager.init optsTTL100 0).defaultTTL ∧
    ∃ e, mapGet
        (CacheManager.set (CacheManager.init optsTTL100 0) 5 "k" Value.prim
          (some 0)).cache "k" = some e ∧
      e.expiresAt.isSome = true :=
  ⟨by decide,
    C10_ttl_zero_default.2.1 (CacheManager.init optsTTL100 0) 5 "k" Value.prim
      0 (by decide) (by decide)⟩

/-! ### Sorting lemmas for the memory-eviction order -/

theorem insertByTime_perm (p : String × Int) (l : List (String × Int)) :
    List.Perm (CacheManager.insertByTime p l) (p :: l) := by
  induction l with
  | nil => exact List.Perm.refl _
  | cons q rest ih =>
    unfold CacheManager.insertByTime
    by_cases h : p.2 ≤ q.2
    · rw [if_pos h]
    · rw [if_neg h]
      exact (ih.cons q).trans (List.Perm.swap p q rest)

theorem sortByTime_perm (l : List (String × Int)) :
    List.Perm (CacheManager.sortByTime l) l := by
  induction l with
  | nil => exact List.Perm.refl _
  | cons p rest ih =>
    exact (insertByTime_perm p (CacheManager.sortByTime rest)).trans (ih.cons p)

theorem insertByTime_sorted (p : String × Int) (l : List (String × Int))
    (h : l.Pairwise (fun a b => a.2 ≤ b.2)) :
    (CacheManager.insertByTime p l).Pairwise (fun a b => a.2 ≤ b.2) := by
  induction l with
  | nil => simp [CacheManager.insertByTime]
  | cons q rest ih =>
    rw [List.pairwise_cons] at h
    unfold CacheManager.insertByTime
    by_cases hle : p.2 ≤ q.2
    · rw [if_pos hle]
      rw [List.pairwise_cons]
      constructor
      · intro r hr
        rcases List.mem_cons.1 hr with hr | hr
        · subst hr; exact hle
        · exact le_trans hle (h.1 r hr)
      · rw [List.pairwise_cons]
        exact h
    · rw [if_neg hle]
      rw [List.pairwise_cons]
      constructor
      · intro r hr
        have hr' := (insertByTime_perm p rest).mem_iff.1 hr
        rcases List.mem_cons.1 hr' with hr' | hr'
        · subst hr'; omega
        · exact h.1 r hr'
      · exact ih h.2

theorem sortByTime_sorted (l : List (String × Int)) :
    (CacheManager.sortByTime l).Pairwise (fun a b => a.2 ≤ b.2) := by
  induction l with
  | nil => simp [CacheManager.sortByTime]
  | cons p rest ih => exact insertByTime_sorted p _ ih

/-! ### The `evictLRU` scan -/

theorem findOldestGo_spec (l : List (String × Int)) :
    ∀ best : String × Int,
      (CacheManager.findOldestGo best l = best ∧ ∀ p ∈ l, best.2 ≤ p.2) ∨
      (∃ l₁ l₂, l = l₁ ++ (CacheManager.findOldestGo best l) :: l₂ ∧
        (CacheManager.findOldestGo best l).2 < best.2 ∧
        (∀ p ∈ l, (CacheManager.findOldestGo best l).2 ≤ p.2) ∧
        (∀ p ∈ l₁, (CacheManager.findOldestGo best l).2 < p.2)) := by
  induction l with
  | nil =>
    intro best
    exact Or.inl ⟨rfl, by simp⟩
  | cons p rest ih =>
    intro best
    unfold CacheManager.findOldestGo
    by_cases hlt : p.2 < best.2
    · rw [if_pos hlt]
      rcases ih p with ⟨heq, hmin⟩ | ⟨l₁, l₂, hsplit, hwlt, hmin, hbefore⟩
      · refine Or.inr ⟨[], rest, ?_, ?_, ?_, ?_⟩
        · rw [heq]; rfl
        · rw [heq]; exact hlt
        · intro q hq
          rw [heq]
          rcases List.mem_cons.1 hq with hq | hq
          · subst hq; exact le_refl _
          · exact hmin q hq
        · intro q hq; simp at hq
      · refine Or.inr ⟨p :: l₁, l₂, ?_, ?_, ?_, ?_⟩
        · rw [List.cons_append, ← hsplit]
        · exact lt_trans hwlt hlt
        · intro q hq
          rcases List.mem_cons.1 hq with hq | hq
          · subst hq; exact le_of_lt hwlt
          · exact hmin q hq
        · intro q hq
          rcases List.mem_cons.1 hq with hq | hq
          · subst hq; exact hwlt
          · exact hbefore q hq
    · rw [if_neg hlt]
      rcases ih best with ⟨heq, hmin⟩ | ⟨l₁, l₂, hsplit, hwlt, hmin, hbefore⟩
      · refine Or.inl ⟨heq, ?_⟩
        intro q hq
        rcases List.mem_cons.1 hq with hq | hq
        · subst hq; omega
        · exact hmin q hq
      · refine Or.inr ⟨p :: l₁, l₂, ?_, ?_, ?_, ?_⟩
        · rw [List.cons_append, ← hsplit]
        · exact hwlt
        · intro q hq
          rcases List.mem_cons.1 hq with hq | hq
          · subst hq; omega
          · exact hmin q hq
        · intro q hq
          rcases List.mem_cons.1 hq with hq | hq
          · subst hq; omega
          · exact hbefore q hq

theorem findOldestKey_spec (l : List (String × Int)) (hne : l ≠ []) :
    ∃ (w : String × Int) (l₁ l₂ : List (String × Int)),
      l = l₁ ++ w :: l₂ ∧
      CacheManager.findOldestKey l = some w.1 ∧
      (∀ p ∈ l, w.2 ≤ p.2) ∧
      (∀ p ∈ l₁, w.2 < p.2) := by
  cases l with
  | nil => exact (hne rfl).elim
  | cons q rest =>
    rcases findOldestGo_spec rest q with ⟨heq, hmin⟩ |
        ⟨l₁, l₂, hsplit, hwlt, hmin, hbefore⟩
    · refine ⟨q, [], rest, rfl, ?_, ?_, ?_⟩
      · show some (CacheManager.findOldestGo q rest).1 = some q.1
        rw [heq]
      · intro p hp
        rcases List.mem_cons.1 hp with hp | hp
        · subst hp; exact le_refl _
        · exact hmin p hp
      · intro p hp; simp at hp
    · refine ⟨CacheManager.findOldestGo q rest, q :: l₁, l₂, ?_, rfl, ?_, ?_⟩
      · rw [List.cons_append, ← hsplit]
      · intro p hp
        rcases List.mem_cons.1 hp with hp | hp
        · subst hp; exact le_of_lt hwlt
        · exact hmin p hp
      · intro p hp
        rcases List.mem_cons.1 hp with hp | hp
        · subst hp; exact hwlt
        · exact hbefore p hp

theorem mapHas_of_mem {β : Type} (m : List (String × β)) (p : String × β)
    (h : p ∈ m) : mapHas m p.1 = true := by
  rw [mapHas_iff_mem]
  exact List.mem_map_of_mem _ h

theorem evictLRU_spec (s : CacheState) (h : Inv s) (hne : s.cache ≠ []) :
    ∃ (k : String) (t : Int) (l₁ l₂ : List (String × Int)),
      s.accessOrder = l₁ ++ (k, t) :: l₂ ∧
      CacheManager.findOldestKey s.accessOrder = some k ∧
      (∀ q ∈ s.cache, t ≤ q.2.lastAccessed) ∧
      (∀ p ∈ l₁, t < p.2) ∧
      CacheManager.evictLRU s
        = (if k = "" then s
          else CacheManager.bumpEvictions (CacheManager.delete s k false).2) := by
  obtain ⟨hnd, hproj, hmem⟩ := h
  have hane : s.accessOrder ≠ [] := by
    rw [hproj]
    intro hc
    apply hne
    cases hm : s.cache with
    | nil => rfl
    | cons a as => rw [hm] at hc; simp [cacheProj] at hc
  obtain ⟨w, l₁, l₂, hsplit, hfind, hmin, hbefore⟩ :=
    findOldestKey_spec s.accessOrder hane
  refine ⟨w.1, w.2, l₁, l₂, by rw [← hsplit], hfind, ?_, hbefore, ?_⟩
  · intro q hq
    have : (q.1, q.2.lastAccessed) ∈ s.accessOrder := by
      rw [hproj]
      exact List.mem_map_of_mem _ hq
    exact hmin _ this
  · unfold CacheManager.evictLRU
    rw [if_neg (by simpa [List.length_eq_zero] using hne), hfind]

/-! ### The `evictMemory` loop -/

theorem evictStep_cache_other (s : CacheState) (key k0 : String)
    (hne : key ≠ k0) :
    mapGet (CacheManager.bumpEvictions
      (CacheManager.delete s key false).2).cache k0 = mapGet s.cache k0 := by
  cases hget : mapGet s.cache key with
  | none => rw [delete_none s key false hget]; rfl
  | some e =>
    rw [delete_some s key false e hget]
    show mapGet (mapDelete s.cache key) k0 = mapGet s.cache k0
    exact mapGet_mapDelete_ne _ hne

theorem evictStep_evictions (s : CacheState) (key : String) :
    (CacheManager.bumpEvictions
      (CacheManager.delete s key false).2).stats.evictions
      = s.stats.evictions + 1 := by
  cases hget : mapGet s.cache key with
  | none =>
    rw [delete_none s key false hget]
    rfl
  | some e =>
    rw [delete_some s key false e hget]
    rfl

theorem evictStep_deletes (s : CacheState) (key : String) :
    (CacheManager.bumpEvictions
      (CacheManager.delete s key false).2).stats.deletes
      = s.stats.deletes := by
  cases hget : mapGet s.cache key with
  | none =>
    rw [delete_none s key false hget]
    rfl
  | some e =>
    rw [delete_some s key false e hget]
    show s.stats.deletes + (if false then 1 else 0) = s.stats.deletes
    simp

theorem sizeIn_evictStep (s : CacheState) (key k0 : String)
    (hne : key ≠ k0) :
    sizeIn (CacheManager.bumpEvictions
      (CacheManager.delete s key false).2) k0 = sizeIn s k0 := by
  unfold sizeIn
  rw [evictStep_cache_other s key k0 hne]

theorem freedBy_evictStep (s : CacheState) (key : String)
    (l : List (String × Int)) (hnk : ∀ p ∈ l, p.1 ≠ key) :
    freedBy (CacheManager.bumpEvictions
      (CacheManager.delete s key false).2) l = freedBy s l := by
  unfold freedBy
  have hmap : l.map (fun p => sizeIn
      (CacheManager.bumpEvictions (CacheManager.delete s key false).2) p.1)
      = l.map (fun p => sizeIn s p.1) := by
    apply List.map_congr_left
    intro p hp
    exact sizeIn_evictStep s key p.1 (fun hc => hnk p hp hc.symm)
  rw [hmap]

theorem freedBy_cons (s : CacheState) (p : String × Int)
    (l : List (String × Int)) :
    freedBy s (p :: l) = (sizeIn s p.1 : Int) + freedBy s l := by
  unfold freedBy
  push_cast [List.map_cons, List.sum_cons]
  ring

theorem evictMemoryGo_cons (s : CacheState) (key : String) (t : Int)
    (rest : List (String × Int)) (freed : Nat) (target : Int) :
    CacheManager.evictMemoryGo s ((key, t) :: rest) freed target
      = if target ≤ (freed : Int) then s
        else
          match mapGet s.cache key with
          | some entry =>
            CacheManager.evictMemoryGo
              (CacheManager.bumpEvictions (CacheManager.delete s key false).2)
              rest (freed + entry.size) target
          | none => CacheManager.evictMemoryGo s rest freed target := rfl

theorem evictMemoryGo_spec (l : List (String × Int)) :
    ∀ (s : CacheState) (freed : Nat) (target : Int),
      ((l.map (fun p => p.1)).Nodup) →
      (∀ p ∈ l, mapHas s.cache p.1 = true) →
      ∃ m, m ≤ l.length ∧
        CacheManager.evictMemoryGo s l freed target
          = bulkEvict s ((l.take m).map (fun p => p.1)) ∧
        (target ≤ (freed : Int) + freedBy s (l.take m) ∨ m = l.length) ∧
        (∀ j, j < m → (freed : Int) + freedBy s (l.take j) < target) ∧
        (CacheManager.evictMemoryGo s l freed target).stats.evictions
          = s.stats.evictions + m ∧
        (CacheManager.evictMemoryGo s l freed target).stats.deletes
          = s.stats.deletes := by
  induction l with
  | nil =>
    intro s freed target hnd hlive
    refine ⟨0, le_refl _, rfl, Or.inr rfl, ?_, rfl, rfl⟩
    intro j hj
    omega
  | cons hd rest ih =>
    intro s freed target hnd hlive
    obtain ⟨key, t⟩ := hd
    by_cases hstop : target ≤ (freed : Int)
    · have hgo0 : CacheManager.evictMemoryGo s ((key, t) :: rest) freed target
          = s := by
        rw [evictMemoryGo_cons, if_pos hstop]
      refine ⟨0, by simp, ?_, Or.inl ?_, ?_, ?_, ?_⟩
      · rw [hgo0]; rfl
      · show target ≤ (freed : Int) + freedBy s []
        unfold freedBy
        simpa using hstop
      · intro j hj; omega
      · rw [hgo0]; rfl
      · rw [hgo0]
    · obtain ⟨e, he⟩ := (mapHas_true_iff _ _).1
        (hlive (key, t) (List.mem_cons_self _ _))
      have hgo : CacheManager.evictMemoryGo s ((key, t) :: rest) freed target
          = CacheManager.evictMemoryGo
              (CacheManager.bumpEvictions (CacheManager.delete s key false).2)
              rest (freed + e.size) target := by
        rw [evictMemoryGo_cons, if_neg hstop, he]
      simp only [List.map_cons, List.nodup_cons] at hnd
      have hkeyrest : ∀ p ∈ rest, p.1 ≠ key := by
        intro p hp hc
        exact hnd.1 (hc ▸ List.mem_map_of_mem _ hp)
      have hliverest : ∀ p ∈ rest,
          mapHas (CacheManager.bumpEvictions
            (CacheManager.delete s key false).2).cache p.1 = true := by
        intro p hp
        have := hlive p (List.mem_cons_of_mem _ hp)
        obtain ⟨e0, he0⟩ := (mapHas_true_iff _ _).1 this
        apply (mapHas_true_iff _ _).2
        refine ⟨e0, ?_⟩
        rw [evictStep_cache_other s key p.1
          (fun hc => hkeyrest p hp hc.symm)]
        exact he0
      obtain ⟨m', hm'le, heq, hstop', hmin', hev', hdel'⟩ :=
        ih (CacheManager.bumpEvictions (CacheManager.delete s key false).2)
          (freed + e.size) target hnd.2 hliverest
      have hfreedpres : ∀ n : Nat,
          freedBy (CacheManager.bumpEvictions
            (CacheManager.delete s key false).2) (rest.take n)
            = freedBy s (rest.take n) := by
        intro n
        apply freedBy_evictStep
        intro p hp
        exact hkeyrest p (List.take_subset n rest hp)
      have hsizekey : sizeIn s key = e.size := by
        unfold sizeIn
        rw [he]
      refine ⟨m' + 1, by simp only [List.length_cons]; omega, ?_, ?_, ?_, ?_, ?_⟩
      · rw [hgo, heq]
        show bulkEvict _ ((rest.take m').map (fun p => p.1))
          = bulkEvict s (((key, t) :: rest.take m').map (fun p => p.1))
        rfl
      · rcases hstop' with hs' | hs'
        · refine Or.inl ?_
          rw [List.take_succ_cons, freedBy_cons, hsizekey]
          rw [hfreedpres m'] at hs'
          push_cast at hs' ⊢
          omega
        · exact Or.inr (by simpa using hs')
      · intro j hj
        cases j with
        | zero =>
          show (freed : Int) + freedBy s [] < target
          unfold freedBy
          simp only [List.map_nil, List.sum_nil, Nat.cast_zero, Int.add_zero]
          omega
        | succ j' =>
          have hj' : j' < m' := by omega
          have := hmin' j' hj'
          rw [hfreedpres j'] at this
          rw [List.take_succ_cons, freedBy_cons, hsizekey]
          push_cast at this ⊢
          omega
      · rw [hgo, hev', evictStep_evictions]
        omega
      · rw [hgo, hdel', evictStep_deletes]

/-! ### Claim C3 -/

/-- **C3** counterexample.  The claim says the count check always evicts
exactly one entry (the one with minimum `lastAccessed`) when the store is at
capacity; with `maxSize = 2` and the least-recently-used key being `""`,
inserting a third key evicts nothing (`if (oldestKey)` is falsy for the
empty string): the store ends with 3 entries and `evictions = 0`. -/
theorem C3_count_check_cex :
    (CacheManager.init optsMax2 0).maxSize = 2 ∧
    exC3.cache.length = 3 ∧
    exC3.stats.evictions = 0 ∧
    mapHas exC3.cache "" = true ∧ mapHas exC3.cache "x" = true ∧
    mapHas exC3.cache "y" = true := by
  decide

/-- **C3** (corrected).  The eviction policy, as implemented: (1) `set` runs
the phases in source order — remove the old entry, memory check, count
check, insert; (2) the memory-eviction order is a stable ascending sort of
the access times; (3) under the representation invariant, `evictMemory`
evicts exactly the shortest prefix of that sorted order whose accumulated
sizes reach `target = memoryUsage + newEntrySize - maxMemory` (or
everything, when the whole store does not reach it), each eviction counted
in `evictions` and none in `deletes`; (4) the count check's victim scan
finds the entry with the globally minimum `lastAccessed`, first-seen
winning ties — but the eviction itself happens **only when that key is not
the empty string**; for the falsy key `""` the check evicts nothing. -/
theorem C3_eviction_policy :
    (∀ (s : CacheState) (now : Int) (k : String) (v : Value)
        (ttl : Option Int),
      CacheManager.set s now k v ttl
        = CacheManager.insertPhase
            (CacheManager.countCheckPhase
              (CacheManager.memoryCheckPhase
                (CacheManager.removeOldPhase s k) (calculateSize k v)))
            now k v
            (if 0 < jsOrInt ttl s.defaultTTL
              then some (now + jsOrInt ttl s.defaultTTL) else none)
            (calculateSize k v)) ∧
    (∀ l : List (String × Int),
      List.Perm (CacheManager.sortByTime l) l ∧
      (CacheManager.sortByTime l).Pairwise (fun a b => a.2 ≤ b.2)) ∧
    (∀ (s : CacheState) (n : Nat), Inv s →
      ∃ m, m ≤ (CacheManager.sortByTime s.accessOrder).length ∧
        CacheManager.evictMemory s n
          = bulkEvict s
              (((CacheManager.sortByTime s.accessOrder).take m).map
                (fun p => p.1)) ∧
        (s.stats.memoryUsage + (n : Int) - s.maxMemory
            ≤ freedBy s ((CacheManager.sortByTime s.accessOrder).take m)
          ∨ m = (CacheManager.sortByTime s.accessOrder).length) ∧
        (∀ j, j < m →
          freedBy s ((CacheManager.sortByTime s.accessOrder).take j)
            < s.stats.memoryUsage + (n : Int) - s.maxMemory) ∧
        (CacheManager.evictMemory s n).stats.evictions
          = s.stats.evictions + m ∧
        (CacheManager.evictMemory s n).stats.deletes = s.stats.deletes) ∧
    (∀ s : CacheState, Inv s → s.cache ≠ [] →
      ∃ (k : String) (t : Int) (l₁ l₂ : List (String × Int)),
        s.accessOrder = l₁ ++ (k, t) :: l₂ ∧
        CacheManager.findOldestKey s.accessOrder = some k ∧
        (∀ q ∈ s.cache, t ≤ q.2.lastAccessed) ∧
        (∀ p ∈ l₁, t < p.2) ∧
        CacheManager.evictLRU s
          = (if k = "" then s
            else CacheManager.bumpEvictions
              (CacheManager.delete s k false).2)) := by
  refine ⟨fun s now k v ttl => rfl,
    fun l => ⟨sortByTime_perm l, sortByTime_sorted l⟩, ?_, evictLRU_spec⟩
  intro s n hInv
  obtain ⟨hnd, hproj, hmem⟩ := hInv
  have hndsort : ((CacheManager.sortByTime s.accessOrder).map
      (fun p => p.1)).Nodup := by
    have hp : List.Perm
        ((CacheManager.sortByTime s.accessOrder).map (fun p => p.1))
        (s.accessOrder.map (fun p => p.1)) :=
      (sortByTime_perm s.accessOrder).map _
    apply hp.nodup_iff.2
    rw [hproj, keys_cacheProj]
    exact hnd
  have hlive : ∀ p ∈ CacheManager.sortByTime s.accessOrder,
      mapHas s.cache p.1 = true := by
    intro p hp
    have hpa : p ∈ s.accessOrder := (sortByTime_perm s.accessOrder).mem_iff.1 hp
    rw [hproj] at hpa
    rw [mapHas_iff_mem]
    have : p.1 ∈ (cacheProj s.cache).map (fun q => q.1) :=
      List.mem_map_of_mem _ hpa
    rw [keys_cacheProj] at this
    exact this
  obtain ⟨m, hle, heq, hstop, hmin, hev, hdel⟩ :=
    evictMemoryGo_spec (CacheManager.sortByTime s.accessOrder) s 0
      (s.stats.memoryUsage + (n : Int) - s.maxMemory) hndsort hlive
  refine ⟨m, hle, heq, ?_, ?_, hev, hdel⟩
  · rcases hstop with hs | hs
    · exact Or.inl (by simpa using hs)
    · exact Or.inr hs
  · intro j hj
    have := hmin j hj
    simpa using this

/-- **C3** witness: the memory-eviction characterization applied to the
concrete state `exC3` (three live entries), with a new-entry size of 500
bytes, and the count-check characterization applied to the same state. -/
theorem C3_witness :
    (Inv exC3 ∧ exC3.cache ≠ []) ∧
    (∃ m, m ≤ (CacheManager.sortByTime exC3.accessOrder).length ∧
      CacheManager.evictMemory exC3 500
        = bulkEvict exC3
            (((CacheManager.sortByTime exC3.accessOrder).take m).map
              (fun p => p.1)) ∧
      (exC3.stats.memoryUsage + (500 : Int) - exC3.maxMemory
          ≤ freedBy exC3 ((CacheManager.sortByTime exC3.accessOrder).take m)
        ∨ m = (CacheManager.sortByTime exC3.accessOrder).length) ∧
      (∀ j, j < m →
        freedBy exC3 ((CacheManager.sortByTime exC3.accessOrder).take j)
          < exC3.stats.memoryUsage + (500 : Int) - exC3.maxMemory) ∧
      (CacheManager.evictMemory exC3 500).stats.evictions
        = exC3.stats.evictions + m ∧
      (CacheManager.evictMemory exC3 500).stats.deletes
        = exC3.stats.deletes) ∧
    (∃ (k : String) (t : Int) (l₁ l₂ : List (String × Int)),
      exC3.accessOrder = l₁ ++ (k, t) :: l₂ ∧
      CacheManager.findOldestKey exC3.accessOrder = some k ∧
      (∀ q ∈ exC3.cache, t ≤ q.2.lastAccessed) ∧
      (∀ p ∈ l₁, t < p.2) ∧
      CacheManager.evictLRU exC3
        = (if k = "" then exC3
          else CacheManager.bumpEvictions
            (CacheManager.delete exC3 k false).2)) :=
  ⟨⟨by decide, by decide⟩,
    C3_eviction_policy.2.2.1 exC3 500 (by decide),
    C3_eviction_policy.2.2.2 exC3 (by decide) (by decide)⟩

end TimeTravelCache
